import Mathlib

/-!
Verification of `src/algorithms/synteny.py` (jcvi synteny module).

The Python source is shallowly embedded below: points are pairs of
integers, the in-place `list.sort()` is modelled by a stable insertion
sort under the lexicographic order on pairs, the `Grouper` union-find
(jcvi.utils.grouper, not part of src/) is modelled from the spec as an
explicit list of disjoint groups, and fallible lookups return `Option`.
-/

namespace Synteny

/-- A 2D hit point `(qi, si)` of integer genome-order indices. -/
abbrev Point := ℤ × ℤ

/-- Lexicographic order on integer pairs: the comparison Python's
`list.sort()` applies to 2-tuples. -/
def pairLe (a b : ℤ × ℤ) : Prop := a.1 < b.1 ∨ (a.1 = b.1 ∧ a.2 ≤ b.2)

instance : DecidableRel pairLe := fun a b =>
  inferInstanceAs (Decidable (_ ∨ _))

instance : IsTotal (ℤ × ℤ) pairLe :=
  ⟨fun a b => by
    rcases lt_trichotomy a.1 b.1 with h | h | h
    · exact Or.inl (Or.inl h)
    · rcases le_total a.2 b.2 with h2 | h2
      · exact Or.inl (Or.inr ⟨h, h2⟩)
      · exact Or.inr (Or.inr ⟨h.symm, h2⟩)
    · exact Or.inr (Or.inl h)⟩

instance : IsTrans (ℤ × ℤ) pairLe :=
  ⟨fun a b c hab hbc => by
    rcases hab with h | ⟨h, h2⟩ <;> rcases hbc with h' | ⟨h', h2'⟩
    · exact Or.inl (h.trans h')
    · exact Or.inl (h'.symm ▸ h)
    · exact Or.inl (h ▸ h')
    · exact Or.inr ⟨h.trans h', h2.trans h2'⟩⟩

instance : IsAntisymm (ℤ × ℤ) pairLe :=
  ⟨fun a b hab hba => by
    rcases hab with h | ⟨h, h2⟩ <;> rcases hba with h' | ⟨h', h2'⟩
    · exact absurd (h.trans h') (lt_irrefl _)
    · exact absurd h (h' ▸ lt_irrefl _)
    · exact absurd h' (h ▸ lt_irrefl _)
    · exact Prod.ext h (le_antisymm h2 h2')⟩

/-- Model of Python's stable in-place `list.sort()` on integer pairs. -/
def sortPairs (l : List (ℤ × ℤ)) : List (ℤ × ℤ) := l.insertionSort pairLe

theorem sortPairs_perm (l : List (ℤ × ℤ)) : (sortPairs l).Perm l :=
  List.perm_insertionSort pairLe l

theorem sortPairs_sorted (l : List (ℤ × ℤ)) : List.Sorted pairLe (sortPairs l) :=
  List.sorted_insertionSort pairLe l

/-- Two permuted lists have the same Python-sorted form. -/
theorem sortPairs_eq_of_perm {l₁ l₂ : List (ℤ × ℤ)} (h : l₁.Perm l₂) :
    sortPairs l₁ = sortPairs l₂ :=
  List.eq_of_perm_of_sorted ((sortPairs_perm l₁).trans (h.trans (sortPairs_perm l₂).symm))
    (sortPairs_sorted l₁) (sortPairs_sorted l₂)

/-- Modelled from the spec: `jcvi.utils.grouper.Grouper.join` (the file
`jcvi/utils/grouper.py` is not under src/).  The disjoint-set state is a
list of disjoint groups; `join a b` inserts `a` as a singleton when it is
ungrouped, then merges `b`'s group (or `b` itself) into `a`'s group. -/
def gJoin (a b : Point) (gs : List (List Point)) : List (List Point) :=
  let gs1 := if gs.any (fun g => decide (a ∈ g)) then gs else gs ++ [[a]]
  let bGroup := match gs1.find? (fun g => decide (b ∈ g)) with
    | none => [b]
    | some g => g
  if a ∈ bGroup then gs1
  else (gs1.filter (fun g => decide (b ∉ g))).map
    (fun g => if a ∈ g then g ++ bGroup else g)

/-- The sequence of `clusters.join(points[i], points[j])` calls performed by
`synteny_scan`'s double loop: for each `i`, previously visited points are
scanned backwards, stopping once `x[i] - x[j] > xdist` (the `break`) and
skipping points with `|y[i] - y[j]| > ydist` (the `continue`). -/
def neighborJoins (pts : List Point) (xdist ydist : ℤ) : List (Point × Point) :=
  (List.range pts.length).foldl (fun acc i =>
    let p := pts.getD i (0, 0)
    acc ++ (((pts.take i).reverse.takeWhile (fun q => decide (p.1 - q.1 ≤ xdist))).filter
      (fun q => decide (|p.2 - q.2| ≤ ydist))).map (fun q => (p, q))) []

/-- Apply a list of union-find joins to the empty `Grouper`. -/
def applyJoins (joins : List (Point × Point)) : List (List Point) :=
  joins.foldl (fun gs ab => gJoin ab.1 ab.2 gs) []

/-- The union-find groups produced by `synteny_scan`'s double loop on an
(already sorted) point list. -/
def scanGroups (pts : List Point) (xdist ydist : ℤ) : List (List Point) :=
  applyJoins (neighborJoins pts xdist ydist)

/-- `_score(cluster)`: the number of non-repetitive matches,
`min(len(set(x)), len(set(y)))`. -/
def _score (cluster : List Point) : ℕ :=
  min (cluster.map Prod.fst).toFinset.card (cluster.map Prod.snd).toFinset.card

/-- `synteny_scan(points, xdist, ydist, N)` together with the final value of
the caller's `points` list (the function sorts it in place). -/
def synteny_scan_full (points : List Point) (xdist ydist : ℤ) (N : ℕ) :
    List (List Point) × List Point :=
  let pts := sortPairs points
  (((scanGroups pts xdist ydist).filter (fun c => decide (N ≤ _score c))).map
      (fun c => sortPairs c),
    pts)

/-- `synteny_scan(points, xdist, ydist, N)`: single-linkage clustering of the
sorted points, keeping only clusters with `_score >= N`, each sorted. -/
def synteny_scan (points : List Point) (xdist ydist : ℤ) (N : ℕ) :
    List (List Point) :=
  (synteny_scan_full points xdist ydist N).1

/-- A filtered blast hit as `read_blast` stores it: the original `query` and
`subject` accession names (the local swap of the `query, subject` variables in
the Python code does not write back into the `BlastLine`), the possibly
swapped seqids, and the possibly swapped genome-order indices. -/
structure Hit where
  query : String
  subject : String
  qseqid : String
  sseqid : String
  qi : ℤ
  si : ℤ
deriving DecidableEq, Repr

/-- One step of `read_blast`'s loop body, acting on the accumulator
`(filtered_blast, seen)`.  Rows whose query or subject is absent from the
order lookups are skipped before the seen-set is consulted; duplicate
`(query, subject)` name pairs are skipped; in self mode a hit with
`qi > si` has its indices and seqids (but not its stored names) swapped. -/
def readBlastStep (qorder sorder : String → Option (ℤ × String)) (is_self : Bool)
    (acc : List Hit × List (String × String)) (row : String × String) :
    List Hit × List (String × String) :=
  match qorder row.1, sorder row.2 with
  | some (qi, q), some (si, s) =>
    if (row.1, row.2) ∈ acc.2 then acc
    else
      let seen := acc.2 ++ [(row.1, row.2)]
      if is_self ∧ qi > si then
        (acc.1 ++ [⟨row.1, row.2, s, q, si, qi⟩], seen)
      else
        (acc.1 ++ [⟨row.1, row.2, q, s, qi, si⟩], seen)
  | _, _ => acc

/-- `read_blast(blast_file, qorder, sorder, is_self)`: convert rows of
`(query, subject)` accession pairs into `Hit`s, skipping rows with unknown
accessions and de-duplicating on the `(query, subject)` name pair. -/
def read_blast (rows : List (String × String))
    (qorder sorder : String → Option (ℤ × String)) (is_self : Bool) : List Hit :=
  (rows.foldl (readBlastStep qorder sorder is_self) ([], [])).1

/-- One step of `read_anchors`' loop: resolve the `(geneA, geneB)` pair
through the order lookups, skipping it when either accession is unknown,
and record the surviving pair under its `(q.seqid, s.seqid)` key. -/
def readAnchorsStep (qorder sorder : String → Option (ℤ × String))
    (acc : List ((String × String) × (ℤ × ℤ))) (r : String × String) :
    List ((String × String) × (ℤ × ℤ)) :=
  match qorder r.1, sorder r.2 with
  | some (qi, q), some (si, s) => acc ++ [((q, s), (qi, si))]
  | _, _ => acc

/-- `read_anchors(anchor_file, qorder, sorder)`: anchor rows (already split
into `(geneA, geneB)` pairs; comment lines and text parsing are handled by
the external format collaborators) are resolved through the order lookups,
unknown accessions skipped. -/
def read_anchors (rows : List (String × String))
    (qorder sorder : String → Option (ℤ × String)) :
    List ((String × String) × (ℤ × ℤ)) :=
  rows.foldl (readAnchorsStep qorder sorder) []

theorem _score_perm {l l' : List Point} (h : l.Perm l') : _score l = _score l' := by
  unfold _score
  rw [List.toFinset_eq_of_perm _ _ (h.map Prod.fst),
    List.toFinset_eq_of_perm _ _ (h.map Prod.snd)]

/-- C1: every cluster retained by `synteny_scan` has
`score = min(|distinct x|, |distinct y|) >= N`, and every union-find group
scoring below `N` is absent from the output (discarded, not merged). -/
theorem scan_score_invariant (points : List Point) (xdist ydist : ℤ) (N : ℕ)
    (hN : 0 < N) :
    (∀ c ∈ synteny_scan points xdist ydist N, N ≤ _score c) ∧
    (∀ g ∈ scanGroups (sortPairs points) xdist ydist, _score g < N →
      sortPairs g ∉ synteny_scan points xdist ydist N) := by
  clear hN
  constructor
  · intro c hc
    simp only [synteny_scan, synteny_scan_full, List.mem_map, List.mem_filter,
      decide_eq_true_eq] at hc
    obtain ⟨g, ⟨_, hsc⟩, rfl⟩ := hc
    rwa [_score_perm (sortPairs_perm g)]
  · intro g _ hlt hmem
    simp only [synteny_scan, synteny_scan_full, List.mem_map, List.mem_filter,
      decide_eq_true_eq] at hmem
    obtain ⟨g', ⟨_, hsc⟩, heq⟩ := hmem
    have h1 : _score (sortPairs g') = _score g' := _score_perm (sortPairs_perm g')
    have h2 : _score (sortPairs g) = _score g := _score_perm (sortPairs_perm g)
    rw [heq] at h1
    omega

/-- Witness for C1 at the spec's own example scenario. -/
theorem scan_score_invariant_witness :
    0 < 2 ∧
    ((∀ c ∈ synteny_scan [(1,1),(2,2),(3,3),(50,50)] 5 5 2, 2 ≤ _score c) ∧
     (∀ g ∈ scanGroups (sortPairs [(1,1),(2,2),(3,3),(50,50)]) 5 5, _score g < 2 →
       sortPairs g ∉ synteny_scan [(1,1),(2,2),(3,3),(50,50)] 5 5 2)) :=
  ⟨by decide, scan_score_invariant [(1,1),(2,2),(3,3),(50,50)] 5 5 2 (by decide)⟩

/-- C9: `synteny_scan` is invariant under permutations of the input point
list — the in-place sort canonicalizes the order, so the output is not
merely the same grouping but literally the same list of clusters. -/
theorem scan_perm_invariant (p₁ p₂ : List Point) (xdist ydist : ℤ) (N : ℕ)
    (h : p₁.Perm p₂) :
    synteny_scan p₁ xdist ydist N = synteny_scan p₂ xdist ydist N := by
  unfold synteny_scan synteny_scan_full
  rw [sortPairs_eq_of_perm h]

/-- Witness for C9: the spec example's points in two different orders. -/
theorem scan_perm_invariant_witness :
    synteny_scan [(50,50),(3,3),(1,1),(2,2)] 5 5 2 =
      synteny_scan [(1,1),(2,2),(3,3),(50,50)] 5 5 2 :=
  scan_perm_invariant [(50,50),(3,3),(1,1),(2,2)] [(1,1),(2,2),(3,3),(50,50)]
    5 5 2 (by decide)

/-- C10: `synteny_scan` sorts the caller's list in place: after the call the
list the caller supplied is exactly its sort under the lexicographic pair
order — a permutation of what was passed in, now sorted ascending by (x, y). -/
theorem scan_mutates_input (points : List Point) (xdist ydist : ℤ) (N : ℕ) :
    (synteny_scan_full points xdist ydist N).2 = sortPairs points ∧
    ((synteny_scan_full points xdist ydist N).2.Perm points ∧
     List.Sorted pairLe (synteny_scan_full points xdist ydist N).2) :=
  ⟨rfl, sortPairs_perm points, sortPairs_sorted points⟩

/-- A two-gene self-comparison order lookup used to exercise `read_blast`:
accessions `A` and `B` map to genome-order indices 0 and 1 on seqid `c`. -/
def selfOrderAB : String → Option (ℤ × String) := fun x =>
  if x = "A" then some (0, "c") else if x = "B" then some (1, "c") else none

/-- C4 counterexample: in self mode the seen-set de-duplicates on the
*ordered* `(query, subject)` name pair before canonicalization, so the rows
`(A, B)` and `(B, A)` both survive and yield the unordered gene pair `{0, 1}`
twice in the returned list. -/
theorem read_blast_unordered_dup_cex :
    (read_blast [("A", "B"), ("B", "A")] selfOrderAB selfOrderAB true).map
        (fun h => (h.qi, h.si)) = [(0, 1), (0, 1)] ∧
    ¬ ((read_blast [("A", "B"), ("B", "A")] selfOrderAB selfOrderAB true).map
        (fun h => (h.qi, h.si))).Nodup := by
  constructor
  · rfl
  · decide

/-- Invariant maintained by `read_blast`'s loop: canonical indices in self
mode, no duplicate `(query, subject)` name pair, and every emitted hit's name
pair recorded in the seen-set. -/
def RBInv (is_self : Bool) (acc : List Hit × List (String × String)) : Prop :=
  (∀ h ∈ acc.1, is_self = true → h.qi ≤ h.si) ∧
  (acc.1.map (fun h => (h.query, h.subject))).Nodup ∧
  (∀ h ∈ acc.1, (h.query, h.subject) ∈ acc.2)

theorem readBlastStep_inv (qorder sorder : String → Option (ℤ × String))
    (is_self : Bool) (acc : List Hit × List (String × String))
    (row : String × String) (h : RBInv is_self acc) :
    RBInv is_self (readBlastStep qorder sorder is_self acc row) := by
  obtain ⟨h1, h2, h3⟩ := h
  unfold readBlastStep
  rcases qorder row.1 with _ | ⟨qi, q⟩
  · exact ⟨h1, h2, h3⟩
  rcases sorder row.2 with _ | ⟨si, s⟩
  · exact ⟨h1, h2, h3⟩
  simp only
  by_cases hseen : (row.1, row.2) ∈ acc.2
  · rw [if_pos hseen]
    exact ⟨h1, h2, h3⟩
  rw [if_neg hseen]
  have hnodup : ∀ hit : Hit, hit.query = row.1 → hit.subject = row.2 →
      ((acc.1 ++ [hit]).map (fun h => (h.query, h.subject))).Nodup := by
    intro hit hq hs
    rw [List.map_append, List.nodup_append]
    refine ⟨h2, by simp, ?_⟩
    intro x hx hx'
    simp only [List.map_cons, List.map_nil, List.mem_singleton, hq, hs] at hx'
    subst hx'
    rcases List.mem_map.1 hx with ⟨h', hmem', hEq⟩
    exact hseen (hEq ▸ h3 h' hmem')
  have hseen' : ∀ hit : Hit, hit.query = row.1 → hit.subject = row.2 →
      ∀ h ∈ acc.1 ++ [hit], (h.query, h.subject) ∈ acc.2 ++ [(row.1, row.2)] := by
    intro hit hq hs h hmem
    rcases List.mem_append.1 hmem with hm | hm
    · exact List.mem_append_left _ (h3 h hm)
    · rw [List.mem_singleton] at hm
      subst hm
      rw [hq, hs]
      exact List.mem_append_right _ (by simp)
  by_cases hswap : is_self = true ∧ qi > si
  · rw [if_pos hswap]
    refine ⟨?_, hnodup _ rfl rfl, hseen' _ rfl rfl⟩
    intro h hmem _
    rcases List.mem_append.1 hmem with hm | hm
    · exact h1 h hm ‹_›
    · rw [List.mem_singleton] at hm
      subst hm
      simp only
      omega
  · rw [if_neg hswap]
    refine ⟨?_, hnodup _ rfl rfl, hseen' _ rfl rfl⟩
    intro h hmem hself
    rcases List.mem_append.1 hmem with hm | hm
    · exact h1 h hm hself
    · rw [List.mem_singleton] at hm
      subst hm
      simp only
      rcases not_and_or.1 hswap with h'' | h''
      · exact absurd hself h''
      · omega

theorem readBlast_fold_inv (rows : List (String × String))
    (qorder sorder : String → Option (ℤ × String)) (is_self : Bool)
    (acc : List Hit × List (String × String)) (h : RBInv is_self acc) :
    RBInv is_self (rows.foldl (readBlastStep qorder sorder is_self) acc) := by
  induction rows generalizing acc with
  | nil => exact h
  | cons row rows ih =>
    exact ih _ (readBlastStep_inv qorder sorder is_self acc row h)

/-- C4 amended: every hit retained by `read_blast` in self mode satisfies
`qi <= si`, and each *ordered* `(query, subject)` accession pair appears at
most once in the returned list (the seen-set keys on the pre-swap names, so
an unordered gene pair can appear once per orientation, as the
counterexample shows). -/
theorem read_blast_canonical (rows : List (String × String))
    (qorder sorder : String → Option (ℤ × String)) (is_self : Bool) :
    (∀ h ∈ read_blast rows qorder sorder is_self, is_self = true → h.qi ≤ h.si) ∧
    ((read_blast rows qorder sorder is_self).map
        (fun h => (h.query, h.subject))).Nodup := by
  have h := readBlast_fold_inv rows qorder sorder is_self ([], [])
    ⟨by simp, by simp, by simp⟩
  exact ⟨h.1, h.2.1⟩

/-- Witness for C4's amended claim at the counterexample input. -/
theorem read_blast_canonical_witness :
    (∀ h ∈ read_blast [("A", "B"), ("B", "A")] selfOrderAB selfOrderAB true,
        true = true → h.qi ≤ h.si) ∧
    ((read_blast [("A", "B"), ("B", "A")] selfOrderAB selfOrderAB true).map
        (fun h => (h.query, h.subject))).Nodup :=
  read_blast_canonical [("A", "B"), ("B", "A")] selfOrderAB selfOrderAB true

/-- Modelled from the spec: `jcvi.utils.range.Range`, a named tuple
`(seqid, start, end, score, id)` over one genome's coordinate axis
(`jcvi/utils/range.py` is not under src/).  `end` is a Lean keyword, so the
field is called `stop`. -/
structure Range where
  seqid : String
  start : ℤ
  stop : ℤ
  score : ℤ
  id : ℤ
deriving DecidableEq, Repr

/-- Modelled from the spec: the dynamic program of `range_chain`
(jcvi.utils.range, not under src/) — weighted interval scheduling.  The
input list is ordered by decreasing end coordinate; for the head range the
program takes the better of "skip" and "take + best over compatible
predecessors" (strictly better, so ties prefer the skip branch, i.e. the
earlier input).  The `fuel` argument only makes the recursion structural;
`fuel = length` always suffices. -/
def chainDP : ℕ → List Range → List Range × ℤ
  | 0, _ => ([], 0)
  | _, [] => ([], 0)
  | fuel + 1, r :: rest =>
    let skip := chainDP fuel rest
    let take := chainDP fuel (rest.filter (fun x => decide (x.stop < r.start)))
    if take.2 + r.score > skip.2 then (r :: take.1, take.2 + r.score) else skip

/-- Modelled from the spec: `range_chain(ranges)` — select a
maximum-total-weight subset of mutually non-overlapping ranges (sort by end
coordinate, ties broken by input order via a stable sort, then the classic
weighted interval scheduling dynamic program), returning the selected subset
and its score. -/
def range_chain (ranges : List Range) : List Range × ℤ :=
  let rs := (ranges.insertionSort (fun a b => a.stop ≤ b.stop)).reverse
  chainDP rs.length rs

/-- `NUL`: the sentinel tag for a selected-range-start event (src line 242). -/
def NUL : ℤ := -1

/-- Modelled from the spec: `LEFT` — the force-left boundary event tag of
jcvi.utils.range; sorts after `NUL` and before `RIGHT` at equal positions. -/
def LEFT : ℤ := 0

/-- Modelled from the spec: `RIGHT` — the force-right boundary event tag of
jcvi.utils.range. -/
def RIGHT : ℤ := 1

/-- The sweep loop of `get_segments`: a force-left event resets the left
edge; a force-right event at `a` emits `(current_left, a)` without moving
the left edge; a range-start event at `a` emits `(current_left, a - 1)` and
advances the left edge to `a`, but only when the span `a - current_left`
meets `minsegment` — otherwise the span is silently absorbed. -/
def sweep (ms : ℤ) : List (ℤ × ℤ) → ℤ → List (ℤ × ℤ)
  | [], _ => []
  | (a, t) :: rest, l =>
    if t = LEFT then sweep ms rest a
    else if t = RIGHT then (l, a) :: sweep ms rest l
    else if t = NUL then
      if a - l < ms then sweep ms rest l
      else (l, a - 1) :: sweep ms rest a
    else sweep ms rest l

/-- `get_segments(ranges, extra, minsegment=40)`: chain the ranges, merge the
selected range starts with the forced break events into one sorted stream,
and sweep left to right emitting segments. -/
def get_segments (ranges : List Range) (extra : List (ℤ × ℤ))
    (minsegment : ℤ := 40) : List (ℤ × ℤ) :=
  sweep minsegment
    (sortPairs ((range_chain ranges).1.map (fun x => (x.start, NUL)) ++
      extra.map (fun x => (x.1, LEFT)) ++ extra.map (fun x => (x.2, RIGHT)))) 0

/-- `isTiling segs lo hi`: the closed integer segments in `segs` are ordered,
mutually non-overlapping, gap-free, and cover `[lo, hi)` exactly (each
`(a, b)` covers `[a, b]`; the program writes partitions by this inclusive
reading, cf. `write_PAD_bed`). -/
def isTiling : List (ℤ × ℤ) → ℤ → ℤ → Bool
  | [], lo, hi => decide (lo = hi)
  | (a, b) :: rest, lo, hi => decide (a = lo) && decide (a ≤ b) && isTiling rest (b + 1) hi

/-- C2 counterexample: two scaffolds tiling `[0, 200)` and one candidate
range starting exactly at the second scaffold's start (index 100).  The
range-start event fires before the force-left event at the same position and
re-emits `[0, 99]`, so the output contains that segment twice — it is not
non-overlapping and does not cover `[0, 200)` exactly. -/
theorem get_segments_not_tiling_cex :
    isTiling [(0, 99), (100, 199)] 0 200 = true ∧
    get_segments [⟨"0", 100, 150, 50, 1⟩] [(0, 99), (100, 199)] 40 =
      [(0, 99), (0, 99), (100, 199)] ∧
    isTiling (get_segments [⟨"0", 100, 150, 50, 1⟩] [(0, 99), (100, 199)] 40)
      0 200 = false := by
  refine ⟨by decide, by decide, by decide⟩

/-- C6 counterexample: a single 5-gene scaffold with the default
`minsegment = 40` — the force-right event emits the segment `[0, 4]` of
length 5 < 40 unconditionally, a standalone output Segment shorter
than `minsegment`. -/
theorem get_segments_short_segment_cex :
    get_segments [] [(0, 4)] 40 = [(0, 4)] ∧ ((4 : ℤ) + 1 - 0 < 40) :=
  ⟨by decide, by decide⟩

theorem sweep_cons_left (ms a l : ℤ) (rest : List (ℤ × ℤ)) :
    sweep ms ((a, LEFT) :: rest) l = sweep ms rest a := by
  simp [sweep]

theorem sweep_cons_right (ms a l : ℤ) (rest : List (ℤ × ℤ)) :
    sweep ms ((a, RIGHT) :: rest) l = (l, a) :: sweep ms rest l := by
  norm_num [sweep, LEFT, RIGHT]

theorem sweep_cons_nul_skip (ms a l : ℤ) (rest : List (ℤ × ℤ))
    (h : a - l < ms) : sweep ms ((a, NUL) :: rest) l = sweep ms rest l := by
  norm_num [sweep, LEFT, RIGHT, NUL, h]

theorem sweep_cons_nul_emit (ms a l : ℤ) (rest : List (ℤ × ℤ))
    (h : ¬ (a - l < ms)) :
    sweep ms ((a, NUL) :: rest) l = (l, a - 1) :: sweep ms rest a := by
  norm_num [sweep, LEFT, RIGHT, NUL, h]

/-- Every segment emitted by the sweep that is shorter than `minsegment`
comes from a force-right event: its right end is a force-right position. -/
theorem sweep_short_from_right (ms : ℤ) (events : List (ℤ × ℤ)) (l : ℤ) :
    ∀ seg ∈ sweep ms events l, seg.2 + 1 - seg.1 < ms →
      (seg.2, RIGHT) ∈ events := by
  induction events generalizing l with
  | nil =>
    intro seg hseg
    simp [sweep] at hseg
  | cons ev rest ih =>
    obtain ⟨a, t⟩ := ev
    intro seg hseg hshort
    by_cases hL : t = LEFT
    · subst hL
      rw [sweep_cons_left] at hseg
      exact List.mem_cons_of_mem _ (ih _ seg hseg hshort)
    by_cases hR : t = RIGHT
    · subst hR
      rw [sweep_cons_right] at hseg
      rcases List.mem_cons.1 hseg with h | h
      · subst h
        exact List.mem_cons_self _ _
      · exact List.mem_cons_of_mem _ (ih _ seg h hshort)
    by_cases hNul : t = NUL
    · subst hNul
      by_cases hms : a - l < ms
      · rw [sweep_cons_nul_skip ms a l rest hms] at hseg
        exact List.mem_cons_of_mem _ (ih _ seg hseg hshort)
      · rw [sweep_cons_nul_emit ms a l rest hms] at hseg
        rcases List.mem_cons.1 hseg with h | h
        · exfalso
          subst h
          simp only at hshort
          omega
        · exact List.mem_cons_of_mem _ (ih _ seg h hshort)
    · rw [show sweep ms ((a, t) :: rest) l = sweep ms rest l by
        simp [sweep, hL, hR, hNul]] at hseg
      exact List.mem_cons_of_mem _ (ih _ seg hseg hshort)

/-- C6 amended: a segment yielded by `get_segments` that is shorter than
`minsegment` can only be one emitted by a force-right scaffold-boundary
event — its right end is the end of one of the forced breaks.  Segments
emitted at selected-range-start events always have length at least
`minsegment` (shorter spans are absorbed), but force-right events emit
unconditionally, so short standalone segments do occur, as the
counterexample shows. -/
theorem get_segments_short_only_at_breaks (ranges : List Range)
    (extra : List (ℤ × ℤ)) (ms : ℤ) :
    ∀ seg ∈ get_segments ranges extra ms, seg.2 + 1 - seg.1 < ms →
      seg.2 ∈ extra.map Prod.snd := by
  intro seg hseg hshort
  have h := sweep_short_from_right ms _ 0 seg hseg hshort
  have h' := (sortPairs_perm _).mem_iff.1 h
  rcases List.mem_append.1 h' with h'' | h''
  · rcases List.mem_append.1 h'' with h3 | h3
    · exfalso
      rcases List.mem_map.1 h3 with ⟨r, _, hEq⟩
      have : NUL = RIGHT := congrArg Prod.snd hEq
      norm_num [NUL, RIGHT] at this
    · exfalso
      rcases List.mem_map.1 h3 with ⟨x, _, hEq⟩
      have : LEFT = RIGHT := congrArg Prod.snd hEq
      norm_num [LEFT, RIGHT] at this
  · rcases List.mem_map.1 h'' with ⟨x, hx, hEq⟩
    have : x.2 = seg.2 := congrArg Prod.fst hEq
    exact this ▸ List.mem_map_of_mem Prod.snd hx

/-- Witness for C6's amended claim at the counterexample input. -/
theorem get_segments_short_only_at_breaks_witness :
    ((0 : ℤ), (4 : ℤ)) ∈ get_segments [] [(0, 4)] 40 ∧
    (4 : ℤ) + 1 - 0 < 40 ∧ (4 : ℤ) ∈ ([(0, 4)] : List (ℤ × ℤ)).map Prod.snd :=
  ⟨by decide, by decide,
    get_segments_short_only_at_breaks [] [(0, 4)] 40 (0, 4) (by decide) (by decide)⟩

/-- The sorted event stream decomposed scaffold by scaffold: each break
`(s, e)` contributes its force-left event, then the range-start events
strictly inside `(s, e]`, then its force-right event. -/
def blockEvents : List (ℤ × ℤ) → List ℤ → List (ℤ × ℤ)
  | [], _ => []
  | (s, e) :: rest, ps =>
    (s, LEFT) ::
      ((ps.filter (fun p => decide (s < p) && decide (p ≤ e))).map (fun p => (p, NUL)) ++
        (e, RIGHT) :: blockEvents rest (ps.filter (fun p => decide (e < p))))

theorem isTiling_append (xs ys : List (ℤ × ℤ)) (lo m hi : ℤ)
    (hx : isTiling xs lo m = true) (hy : isTiling ys m hi = true) :
    isTiling (xs ++ ys) lo hi = true := by
  induction xs generalizing lo with
  | nil =>
    simp only [isTiling, decide_eq_true_eq] at hx
    subst hx
    simpa using hy
  | cons x xs ih =>
    obtain ⟨a, b⟩ := x
    simp only [isTiling, Bool.and_eq_true, decide_eq_true_eq] at hx ⊢
    exact ⟨hx.1, ih _ hx.2⟩

/-- Sweeping the range-start events of one scaffold followed by its
force-right event emits a tiling of `[l, e]` and passes an updated left edge
to the remaining events. -/
theorem sweep_nuls_right (ms : ℤ) (hms : 1 ≤ ms) (ps : List ℤ) :
    ∀ (l e : ℤ) (rest : List (ℤ × ℤ)), l ≤ e → (∀ p ∈ ps, p ≤ e) →
    ∃ segs l', sweep ms (ps.map (fun p => (p, NUL)) ++ (e, RIGHT) :: rest) l =
        segs ++ (l', e) :: sweep ms rest l' ∧
      isTiling (segs ++ [(l', e)]) l (e + 1) = true := by
  induction ps with
  | nil =>
    intro l e rest hle _
    refine ⟨[], l, ?_, ?_⟩
    · rw [List.map_nil, List.nil_append, sweep_cons_right]
      simp
    · simp [isTiling, hle]
  | cons p ps ih =>
    intro l e rest hle hp
    by_cases hsm : p - l < ms
    · obtain ⟨segs, l', h1, h2⟩ := ih l e rest hle (fun q hq => hp q (List.mem_cons_of_mem _ hq))
      refine ⟨segs, l', ?_, h2⟩
      rw [List.map_cons, List.cons_append, sweep_cons_nul_skip ms p l _ hsm, h1]
    · have hpe : p ≤ e := hp p (List.mem_cons_self _ _)
      obtain ⟨segs, l', h1, h2⟩ := ih p e rest hpe (fun q hq => hp q (List.mem_cons_of_mem _ hq))
      refine ⟨(l, p - 1) :: segs, l', ?_, ?_⟩
      · rw [List.map_cons, List.cons_append, sweep_cons_nul_emit ms p l _ hsm, h1,
          List.cons_append]
      · simp only [List.cons_append, isTiling, Bool.and_eq_true, decide_eq_true_eq]
        refine ⟨⟨by simp, by omega⟩, by simpa using h2⟩

/-- Sweeping a scaffold-decomposed event stream emits a tiling of the
scaffolds' full extent, whatever the incoming left edge. -/
theorem sweep_blocks (ms : ℤ) (hms : 1 ≤ ms) (extra : List (ℤ × ℤ)) :
    ∀ (lo hi : ℤ) (ps : List ℤ) (l : ℤ), isTiling extra lo hi = true →
    isTiling (sweep ms (blockEvents extra ps) l) lo hi = true := by
  induction extra with
  | nil =>
    intro lo hi ps l h
    exact h
  | cons se rest ih =>
    intro lo hi ps l h
    obtain ⟨s, e⟩ := se
    simp only [isTiling, Bool.and_eq_true, decide_eq_true_eq] at h
    obtain ⟨⟨hslo, hse⟩, hrest⟩ := h
    subst hslo
    unfold blockEvents
    rw [sweep_cons_left]
    obtain ⟨segs, l', h1, h2⟩ := sweep_nuls_right ms hms
      (ps.filter (fun p => decide (s < p) && decide (p ≤ e))) s e
      (blockEvents rest (ps.filter (fun p => decide (e < p)))) hse
      (by
        intro p hp
        simp only [List.mem_filter, Bool.and_eq_true, decide_eq_true_eq] at hp
        exact hp.2.2)
    rw [h1, show segs ++ (l', e) :: sweep ms (blockEvents rest
        (ps.filter (fun p => decide (e < p)))) l' =
      (segs ++ [(l', e)]) ++ sweep ms (blockEvents rest
        (ps.filter (fun p => decide (e < p)))) l' by simp]
    exact isTiling_append _ _ _ (e + 1) _ h2 (ih _ _ _ _ hrest)

theorem perm_shuffle {α : Type} [DecidableEq α] (x y : α) (A B C D : List α) :
    (x :: (A ++ y :: (B ++ C ++ D))).Perm ((A ++ B) ++ (x :: C) ++ (y :: D)) := by
  rw [List.perm_iff_count]
  intro a
  simp only [List.count_append, List.count_cons]
  ring

theorem blockEvents_lb (extra : List (ℤ × ℤ)) : ∀ (lo hi : ℤ) (ps : List ℤ),
    isTiling extra lo hi = true → ∀ x ∈ blockEvents extra ps, lo ≤ x.1 := by
  induction extra with
  | nil =>
    intro lo hi ps _ x hx
    simp [blockEvents] at hx
  | cons se rest ih =>
    intro lo hi ps h x hx
    obtain ⟨s, e⟩ := se
    simp only [isTiling, Bool.and_eq_true, decide_eq_true_eq] at h
    obtain ⟨⟨hslo, hse⟩, hrest⟩ := h
    subst hslo
    unfold blockEvents at hx
    rcases List.mem_cons.1 hx with rfl | hx
    · exact le_refl _
    rcases List.mem_append.1 hx with hx | hx
    · rcases List.mem_map.1 hx with ⟨p, hp, rfl⟩
      rw [List.mem_filter, Bool.and_eq_true, decide_eq_true_eq, decide_eq_true_eq] at hp
      exact le_of_lt hp.2.1
    rcases List.mem_cons.1 hx with rfl | hx
    · exact hse
    · have := ih (e + 1) hi _ hrest x hx
      omega

theorem blockEvents_sorted (extra : List (ℤ × ℤ)) : ∀ (lo hi : ℤ) (ps : List ℤ),
    isTiling extra lo hi = true → List.Pairwise (· ≤ ·) ps →
    List.Pairwise pairLe (blockEvents extra ps) := by
  induction extra with
  | nil =>
    intro lo hi ps _ _
    simp [blockEvents]
  | cons se rest ih =>
    intro lo hi ps h hsort
    obtain ⟨s, e⟩ := se
    simp only [isTiling, Bool.and_eq_true, decide_eq_true_eq] at h
    obtain ⟨⟨hslo, hse⟩, hrest⟩ := h
    unfold blockEvents
    rw [List.pairwise_cons]
    constructor
    · intro y hy
      rcases List.mem_append.1 hy with hy | hy
      · rcases List.mem_map.1 hy with ⟨p, hp, rfl⟩
        rw [List.mem_filter, Bool.and_eq_true, decide_eq_true_eq, decide_eq_true_eq] at hp
        exact Or.inl hp.2.1
      rcases List.mem_cons.1 hy with rfl | hy
      · rcases lt_or_eq_of_le hse with h' | h'
        · exact Or.inl h'
        · exact Or.inr ⟨h', by norm_num [LEFT, RIGHT]⟩
      · have := blockEvents_lb rest (e + 1) hi _ hrest y hy
        exact Or.inl (by omega)
    rw [List.pairwise_append]
    refine ⟨?_, ?_, ?_⟩
    · refine List.Pairwise.map _ ?_ (hsort.filter _)
      intro a b hab
      rcases lt_or_eq_of_le hab with h' | h'
      · exact Or.inl h'
      · exact Or.inr ⟨h', le_refl _⟩
    · rw [List.pairwise_cons]
      constructor
      · intro y hy
        have := blockEvents_lb rest (e + 1) hi _ hrest y hy
        exact Or.inl (by omega)
      · exact ih (e + 1) hi _ hrest (hsort.filter _)
    · intro x hx y hy
      rcases List.mem_map.1 hx with ⟨p, hp, rfl⟩
      rw [List.mem_filter, Bool.and_eq_true, decide_eq_true_eq, decide_eq_true_eq] at hp
      rcases List.mem_cons.1 hy with rfl | hy
      · rcases lt_or_eq_of_le hp.2.2 with h' | h'
        · exact Or.inl h'
        · exact Or.inr ⟨h', by norm_num [NUL, RIGHT]⟩
      · have := blockEvents_lb rest (e + 1) hi _ hrest y hy
        exact Or.inl (by omega)

theorem blockEvents_perm (extra : List (ℤ × ℤ)) : ∀ (lo hi : ℤ) (ps : List ℤ),
    isTiling extra lo hi = true →
    (∀ p ∈ ps, lo ≤ p ∧ p < hi ∧ p ∉ extra.map Prod.fst) →
    (blockEvents extra ps).Perm
      (ps.map (fun p => (p, NUL)) ++ extra.map (fun x => (x.1, LEFT)) ++
        extra.map (fun x => (x.2, RIGHT))) := by
  induction extra with
  | nil =>
    intro lo hi ps h hp
    cases ps with
    | nil => simp [blockEvents]
    | cons p ps =>
      exfalso
      obtain ⟨h1, h2, _⟩ := hp p (List.mem_cons_self _ _)
      simp only [isTiling, decide_eq_true_eq] at h
      omega
  | cons se rest ih =>
    intro lo hi ps h hp
    obtain ⟨s, e⟩ := se
    simp only [isTiling, Bool.and_eq_true, decide_eq_true_eq] at h
    obtain ⟨⟨hslo, hse⟩, hrest⟩ := h
    subst hslo
    simp only [List.map_cons] at hp ⊢
    have hfilter : ps.filter (fun p => decide (s < p) && decide (p ≤ e)) =
        ps.filter (fun p => decide (p ≤ e)) := by
      apply List.filter_congr
      intro p hmem
      obtain ⟨h1, _, h3⟩ := hp p hmem
      have hne : p ≠ s := fun heq => h3 (by simp [heq])
      have hps : s < p := by omega
      simp [hps]
    have hIH := ih (e + 1) hi (ps.filter (fun p => decide (e < p))) hrest (by
      intro p hmem
      rw [List.mem_filter, decide_eq_true_eq] at hmem
      obtain ⟨h1, h2, h3⟩ := hp p hmem.1
      exact ⟨by omega, h2, fun hc => h3 (List.mem_cons_of_mem _ hc)⟩)
    have hsplit : ((ps.filter (fun p => decide (p ≤ e))) ++
        (ps.filter (fun p => decide (e < p)))).Perm ps := by
      have hperm := List.filter_append_perm (fun p => decide (p ≤ e)) ps
      have heq : ps.filter (fun a => !decide (a ≤ e)) =
          ps.filter (fun p => decide (e < p)) := by
        apply List.filter_congr
        intro a _
        by_cases hc : a ≤ e
        · simp [hc, not_lt.2 hc]
        · simp [hc, not_le.1 hc]
      rw [heq] at hperm
      exact hperm
    unfold blockEvents
    rw [hfilter]
    refine (List.Perm.cons _ (List.Perm.append_left _ (List.Perm.cons _ hIH))).trans ?_
    refine (perm_shuffle _ _ _ _ _ _).trans ?_
    rw [← List.map_append]
    exact ((hsplit.map _).append_right _).append_right _

/-- C2 amended: if the forced breaks tile `[0, gene_count)`, `minsegment` is
at least 1, and no selected range starts at a scaffold's first index, then
the segments yielded by `get_segments` are ordered, mutually non-overlapping,
gap-free, and cover `[0, gene_count)` exactly.  (Without the scaffold-start
proviso the counterexample shows the output can duplicate a segment.) -/
theorem get_segments_tiling (ranges : List Range) (extra : List (ℤ × ℤ))
    (geneCount ms : ℤ) (hms : 1 ≤ ms)
    (hextra : isTiling extra 0 geneCount = true)
    (hranges : ∀ r ∈ (range_chain ranges).1,
      0 ≤ r.start ∧ r.start < geneCount ∧ r.start ∉ extra.map Prod.fst) :
    isTiling (get_segments ranges extra ms) 0 geneCount = true := by
  unfold get_segments
  have hps : ∀ p ∈ ((range_chain ranges).1.map Range.start).insertionSort (· ≤ ·),
      0 ≤ p ∧ p < geneCount ∧ p ∉ extra.map Prod.fst := by
    intro p hp
    have hp' : p ∈ (range_chain ranges).1.map Range.start :=
      (List.perm_insertionSort _ _).mem_iff.1 hp
    rcases List.mem_map.1 hp' with ⟨r, hr, rfl⟩
    exact hranges r hr
  have hkey : sortPairs ((range_chain ranges).1.map (fun x => (x.start, NUL)) ++
      extra.map (fun x => (x.1, LEFT)) ++ extra.map (fun x => (x.2, RIGHT))) =
      blockEvents extra (((range_chain ranges).1.map Range.start).insertionSort (· ≤ ·)) := by
    have hperm : (sortPairs ((range_chain ranges).1.map (fun x => (x.start, NUL)) ++
        extra.map (fun x => (x.1, LEFT)) ++ extra.map (fun x => (x.2, RIGHT)))).Perm
        (blockEvents extra
          (((range_chain ranges).1.map Range.start).insertionSort (· ≤ ·))) := by
      refine (sortPairs_perm _).trans ?_
      have h2 : ((((range_chain ranges).1.map Range.start).insertionSort (· ≤ ·)).map
          (fun p => (p, NUL))).Perm ((range_chain ranges).1.map (fun x => (x.start, NUL))) := by
        have := (List.perm_insertionSort (· ≤ ·)
          ((range_chain ranges).1.map Range.start)).map (fun p => (p, NUL))
        simpa [List.map_map, Function.comp] using this
      exact ((blockEvents_perm extra 0 geneCount _ hextra hps).trans
        ((h2.append_right _).append_right _)).symm
    have hs1 : List.Sorted pairLe (sortPairs ((range_chain ranges).1.map
        (fun x => (x.start, NUL)) ++ extra.map (fun x => (x.1, LEFT)) ++
        extra.map (fun x => (x.2, RIGHT)))) := sortPairs_sorted _
    have hs2 : List.Sorted pairLe (blockEvents extra
        (((range_chain ranges).1.map Range.start).insertionSort (· ≤ ·))) :=
      blockEvents_sorted extra 0 geneCount _ hextra (List.sorted_insertionSort _ _)
    exact List.eq_of_perm_of_sorted hperm hs1 hs2
  rw [hkey]
  exact sweep_blocks ms hms extra 0 geneCount _ 0 hextra

/-- Witness for C2's amended claim: two scaffolds tiling `[0, 200)` and a
selected range starting inside a scaffold produce the exact tiling
`[0, 49], [50, 99], [100, 199]`. -/
theorem get_segments_tiling_witness :
    (1 : ℤ) ≤ 40 ∧ isTiling [(0, 99), (100, 199)] 0 200 = true ∧
    isTiling (get_segments [⟨"0", 50, 150, 100, 1⟩] [(0, 99), (100, 199)] 40)
      0 200 = true :=
  ⟨by decide, by decide,
    get_segments_tiling [⟨"0", 50, 150, 100, 1⟩] [(0, 99), (100, 199)] 200 40
      (by decide) (by decide) (by decide)⟩

/-- L1 (Manhattan) distance between two integer points, the `p=1` metric the
source passes to `tree.query`. -/
def l1dist (a b : ℤ × ℤ) : ℤ := |a.1 - b.1| + |a.2 - b.2|

/-- Modelled from the spec: the `scipy.spatial.cKDTree` nearest-neighbour
query (an external library, specified only at its interface): it returns the
minimal L1 distance over the anchor set together with the index of an anchor
attaining it, or `none` for an empty anchor set.  `synteny_liftover` then
keeps a point iff the reported distance is within the upper bound. -/
def kdNearest : List (ℤ × ℤ) → (ℤ × ℤ) → Option (ℤ × ℕ)
  | [], _ => none
  | a :: as, p =>
    match kdNearest as p with
    | none => some (l1dist p a, 0)
    | some (d, i) =>
      if l1dist p a ≤ d then some (l1dist p a, 0) else some (d, i + 1)

/-- `synteny_liftover(points, anchors, dist)`: yield, in input order, the
points whose nearest anchor lies within L1 distance `dist`; points whose
nearest-anchor query comes back out of range are dropped. -/
def synteny_liftover (points anchors : List (ℤ × ℤ)) (dist : ℤ) :
    List (ℤ × ℤ) :=
  points.filter (fun p =>
    match kdNearest anchors p with
    | some (d, _) => decide (d ≤ dist)
    | none => false)

theorem kdNearest_cons (a : ℤ × ℤ) (as : List (ℤ × ℤ)) (p : ℤ × ℤ) :
    kdNearest (a :: as) p =
      match kdNearest as p with
      | none => some (l1dist p a, 0)
      | some (d, i) =>
        if l1dist p a ≤ d then some (l1dist p a, 0) else some (d, i + 1) := rfl

theorem kdNearest_spec (anchors : List (ℤ × ℤ)) (p : ℤ × ℤ)
    (h : anchors ≠ []) :
    ∃ d i, kdNearest anchors p = some (d, i) ∧
      (∃ a ∈ anchors, l1dist p a = d) ∧ ∀ a ∈ anchors, d ≤ l1dist p a := by
  induction anchors with
  | nil => exact absurd rfl h
  | cons a as ih =>
    cases as with
    | nil =>
      refine ⟨l1dist p a, 0, rfl, ⟨a, List.mem_cons_self _ _, rfl⟩, ?_⟩
      intro x hx
      rcases List.mem_cons.1 hx with rfl | hx
      · exact le_refl _
      · simp at hx
    | cons b bs =>
      obtain ⟨d, i, heq, ⟨c, hc, hcd⟩, hmin⟩ := ih (by simp)
      by_cases hle : l1dist p a ≤ d
      · refine ⟨l1dist p a, 0, ?_, ⟨a, List.mem_cons_self _ _, rfl⟩, ?_⟩
        · rw [kdNearest_cons, heq]
          simp [hle]
        · intro x hx
          rcases List.mem_cons.1 hx with rfl | hx
          · exact le_refl _
          · exact le_trans hle (hmin x hx)
      · refine ⟨d, i + 1, ?_, ⟨c, List.mem_cons_of_mem _ hc, hcd⟩, ?_⟩
        · rw [kdNearest_cons, heq]
          simp [hle]
        · intro x hx
          rcases List.mem_cons.1 hx with rfl | hx
          · omega
          · exact hmin x hx

/-- C5: with a non-empty anchor set and non-negative `dist`, the liftover
yields a subsequence of the input (original order preserved), and a point is
yielded iff some anchor lies within L1 distance `dist` of it. -/
theorem liftover_iff_near (points anchors : List (ℤ × ℤ)) (dist : ℤ)
    (hanch : anchors ≠ []) (hdist : 0 ≤ dist) :
    (synteny_liftover points anchors dist).Sublist points ∧
    ∀ p, p ∈ synteny_liftover points anchors dist ↔
      p ∈ points ∧ ∃ a ∈ anchors, l1dist p a ≤ dist := by
  clear hdist
  refine ⟨List.filter_sublist _, ?_⟩
  intro p
  rw [synteny_liftover, List.mem_filter]
  obtain ⟨d, i, heq, ⟨a, ha, had⟩, hmin⟩ := kdNearest_spec anchors p hanch
  constructor
  · rintro ⟨hp, hpred⟩
    rw [heq] at hpred
    simp only [decide_eq_true_eq] at hpred
    exact ⟨hp, a, ha, by omega⟩
  · rintro ⟨hp, b, hb, hbd⟩
    refine ⟨hp, ?_⟩
    rw [heq]
    simp only [decide_eq_true_eq]
    exact le_trans (hmin b hb) hbd

/-- Witness for C5 on a concrete point and anchor set. -/
theorem liftover_iff_near_witness :
    (synteny_liftover [(0, 0), (10, 10)] [(1, 1)] 2).Sublist [(0, 0), (10, 10)] ∧
    (((0 : ℤ), (0 : ℤ)) ∈ synteny_liftover [(0, 0), (10, 10)] [(1, 1)] 2 ↔
      ((0 : ℤ), (0 : ℤ)) ∈ ([(0, 0), (10, 10)] : List (ℤ × ℤ)) ∧
      ∃ a ∈ ([(1, 1)] : List (ℤ × ℤ)), l1dist (0, 0) a ≤ 2) :=
  ⟨(liftover_iff_near [(0, 0), (10, 10)] [(1, 1)] 2 (by simp) (by decide)).1,
   (liftover_iff_near [(0, 0), (10, 10)] [(1, 1)] 2 (by simp) (by decide)).2 (0, 0)⟩

/-- One `observed[qsi, ssi] += 1` cell increment. -/
def bump {m n : ℕ} (obs : Fin m → Fin n → ℕ) (i : Fin m) (j : Fin n) :
    Fin m → Fin n → ℕ :=
  fun a b => if a = i ∧ b = j then obs a b + 1 else obs a b

/-- The hit-counting loop of `cluster` (src lines 353-362): each blast row's
query and subject accessions are resolved through the PAD order lookups by
plain indexing, so an accession absent from a lookup raises a `KeyError`
(modelled as `Except.error`); otherwise the row's cell is incremented and
the running dot count advanced. -/
def countObserved {m n : ℕ} (qlook : String → Option (Fin m))
    (slook : String → Option (Fin n)) :
    List (String × String) → (Fin m → Fin n → ℕ) → ℕ →
      Except String ((Fin m → Fin n → ℕ) × ℕ)
  | [], obs, dots => .ok (obs, dots)
  | r :: rs, obs, dots =>
    match qlook r.1, slook r.2 with
    | some i, some j => countObserved qlook slook rs (bump obs i j) (dots + 1)
    | _, _ => .error "KeyError"

theorem countObserved_cons {m n : ℕ} (qlook : String → Option (Fin m))
    (slook : String → Option (Fin n)) (r : String × String)
    (rs : List (String × String)) (obs : Fin m → Fin n → ℕ) (dots : ℕ) :
    countObserved qlook slook (r :: rs) obs dots =
      match qlook r.1, slook r.2 with
      | some i, some j => countObserved qlook slook rs (bump obs i j) (dots + 1)
      | _, _ => .error "KeyError" := rfl

/-- `expected[i, j] = all_dots * alen * blen * 1. / S` with
`S = len(qbed) * len(sbed)` (src lines 366-372), over exact rationals. -/
def expectedQ {m n : ℕ} (allDots : ℕ) (qpadlen : Fin m → ℕ)
    (spadlen : Fin n → ℕ) (qbedlen sbedlen : ℕ) : Fin m → Fin n → ℚ :=
  fun i j => (allDots * qpadlen i * spadlen j : ℚ) / (qbedlen * sbedlen)

/-- The observed/expected part of `cluster` up to and including the two
`assert int(round(...sum())) == all_dots` checks (src lines 350-374): a
failing assertion aborts the run (`Except.error`) before the significance
matrix is computed. -/
def clusterChecks {m n : ℕ} (qlook : String → Option (Fin m))
    (slook : String → Option (Fin n)) (rows : List (String × String))
    (qpadlen : Fin m → ℕ) (spadlen : Fin n → ℕ) (qbedlen sbedlen : ℕ) :
    Except String ((Fin m → Fin n → ℕ) × ℕ × (Fin m → Fin n → ℚ)) :=
  match countObserved qlook slook rows (fun _ _ => 0) 0 with
  | .error e => .error e
  | .ok (obs, dots) =>
    if round (∑ i, ∑ j, (obs i j : ℚ)) ≠ (dots : ℤ) then
      .error "AssertionError: observed"
    else if round (∑ i, ∑ j, expectedQ dots qpadlen spadlen qbedlen sbedlen i j) ≠
        (dots : ℤ) then
      .error "AssertionError: expected"
    else .ok (obs, dots, expectedQ dots qpadlen spadlen qbedlen sbedlen)

/-- Modelled from the spec: `scipy.stats.distributions.poisson.pmf` (an
external library, specified only at its interface): the Poisson probability
mass `exp(-mu) * mu^k / k!`. -/
noncomputable def poissonPmf (k : ℕ) (mu : ℝ) : ℝ :=
  Real.exp (-mu) * mu ^ k / (Nat.factorial k)

/-- The significance loop of `cluster` (src lines 378-383):
`logmp[i, j] = max(-log(M * poisson.pmf(obs, exp)), 0)` with `M = m * n`. -/
noncomputable def logmpMatrix {m n : ℕ} (obs : Fin m → Fin n → ℕ)
    (expc : Fin m → Fin n → ℚ) : Fin m → Fin n → ℝ :=
  fun i j =>
    max (-(Real.log ((m * n : ℝ) * poissonPmf (obs i j) (expc i j)))) 0

theorem sum_bump {m n : ℕ} (obs : Fin m → Fin n → ℕ) (i : Fin m) (j : Fin n) :
    (∑ a, ∑ b, bump obs i j a b) = (∑ a, ∑ b, obs a b) + 1 := by
  have h1 : ∀ a b, bump obs i j a b = obs a b + if a = i ∧ b = j then 1 else 0 := by
    intro a b
    unfold bump
    by_cases h : a = i ∧ b = j <;> simp [h]
  simp only [h1, Finset.sum_add_distrib]
  congr 1
  have h2 : ∀ a : Fin m, (∑ b, if a = i ∧ b = j then (1 : ℕ) else 0) =
      if a = i then 1 else 0 := by
    intro a
    by_cases h : a = i <;> simp [h]
  simp [h2]

theorem countObserved_ok_cell {m n : ℕ} (qlook : String → Option (Fin m))
    (slook : String → Option (Fin n)) (rows : List (String × String)) :
    ∀ (obs0 : Fin m → Fin n → ℕ) (d0 : ℕ) (obs : Fin m → Fin n → ℕ) (dots : ℕ),
    countObserved qlook slook rows obs0 d0 = .ok (obs, dots) →
    ∀ i j, obs i j = obs0 i j +
      rows.countP (fun r => decide (qlook r.1 = some i) && decide (slook r.2 = some j)) := by
  induction rows with
  | nil =>
    intro obs0 d0 obs dots h i j
    injection h with h
    injection h with h1 _
    subst h1
    simp
  | cons r rs ih =>
    intro obs0 d0 obs dots h i j
    rw [countObserved_cons] at h
    rcases hq : qlook r.1 with _ | i' <;> rw [hq] at h
    · exact absurd h (by simp)
    rcases hs : slook r.2 with _ | j' <;> rw [hs] at h
    · exact absurd h (by simp)
    have hcell := ih (bump obs0 i' j') (d0 + 1) obs dots h i j
    rw [List.countP_cons]
    simp only [hq, hs, Option.some.injEq] at hcell ⊢
    unfold bump at hcell
    by_cases hi : i' = i <;> by_cases hj : j' = j
    · simp [hi, hj] at hcell ⊢
      omega
    · have hj2 : ¬ (j = j') := fun hc => hj hc.symm
      simp [hi, hj, hj2] at hcell ⊢
      omega
    · have hi2 : ¬ (i = i') := fun hc => hi hc.symm
      simp [hi, hi2, hj] at hcell ⊢
      omega
    · have hi2 : ¬ (i = i') := fun hc => hi hc.symm
      have hj2 : ¬ (j = j') := fun hc => hj hc.symm
      simp [hi, hi2, hj, hj2] at hcell ⊢
      omega

theorem countObserved_ok_sum {m n : ℕ} (qlook : String → Option (Fin m))
    (slook : String → Option (Fin n)) (rows : List (String × String)) :
    ∀ (obs0 : Fin m → Fin n → ℕ) (d0 : ℕ) (obs : Fin m → Fin n → ℕ) (dots : ℕ),
    countObserved qlook slook rows obs0 d0 = .ok (obs, dots) →
    (∑ i, ∑ j, obs i j) + d0 = (∑ i, ∑ j, obs0 i j) + dots := by
  induction rows with
  | nil =>
    intro obs0 d0 obs dots h
    injection h with h
    injection h with h1 h2
    subst h1
    subst h2
    rfl
  | cons r rs ih =>
    intro obs0 d0 obs dots h
    rw [countObserved_cons] at h
    rcases hq : qlook r.1 with _ | i' <;> rw [hq] at h
    · exact absurd h (by simp)
    rcases hs : slook r.2 with _ | j' <;> rw [hs] at h
    · exact absurd h (by simp)
    have hsum := ih (bump obs0 i' j') (d0 + 1) obs dots h
    rw [sum_bump] at hsum
    omega

theorem expectedQ_sum {m n : ℕ} (d : ℕ) (qpadlen : Fin m → ℕ)
    (spadlen : Fin n → ℕ) (qbedlen sbedlen : ℕ)
    (hq : (∑ i, qpadlen i) = qbedlen) (hs : (∑ j, spadlen j) = sbedlen)
    (hq0 : 0 < qbedlen) (hs0 : 0 < sbedlen) :
    (∑ i, ∑ j, expectedQ d qpadlen spadlen qbedlen sbedlen i j) = d := by
  unfold expectedQ
  have hS : ((qbedlen : ℚ) * sbedlen) ≠ 0 := by
    have h1 : (0 : ℚ) < qbedlen := by exact_mod_cast hq0
    have h2 : (0 : ℚ) < sbedlen := by exact_mod_cast hs0
    positivity
  simp only [← Finset.sum_div]
  have hnum : (∑ i, ∑ j, ((d : ℚ) * qpadlen i * spadlen j)) =
      (d : ℚ) * qbedlen * sbedlen := by
    rw [← hq, ← hs]
    push_cast
    rw [← Finset.sum_mul_sum Finset.univ Finset.univ
      (fun i => (d : ℚ) * (qpadlen i : ℚ)) (fun j => (spadlen j : ℚ)),
      ← Finset.mul_sum, mul_assoc]
  rw [hnum, mul_assoc, mul_div_assoc, div_self hS, mul_one]

/-- C7: when the hit-counting loop completes, the observed counts sum to the
total dot count exactly, the expected counts sum to it exactly (so certainly
within rounding tolerance) provided the partition lengths sum to the two
genomes' gene counts, and both assertions pass, letting `clusterChecks`
return the matrices; while on a second input whose expected-sum assertion
fails, `clusterChecks` aborts with an error before producing anything. -/
theorem cluster_sum_invariants {m n : ℕ} (qlook : String → Option (Fin m))
    (slook : String → Option (Fin n)) (rows : List (String × String))
    (qpadlen : Fin m → ℕ) (spadlen : Fin n → ℕ) (qbedlen sbedlen : ℕ)
    (obs : Fin m → Fin n → ℕ) (dots : ℕ)
    (hok : countObserved qlook slook rows (fun _ _ => 0) 0 = .ok (obs, dots))
    (hq : (∑ i, qpadlen i) = qbedlen) (hs : (∑ j, spadlen j) = sbedlen)
    (hq0 : 0 < qbedlen) (hs0 : 0 < sbedlen)
    (rows' : List (String × String)) (qpadlen' : Fin m → ℕ)
    (spadlen' : Fin n → ℕ) (qbedlen' sbedlen' : ℕ)
    (obs' : Fin m → Fin n → ℕ) (dots' : ℕ)
    (hok' : countObserved qlook slook rows' (fun _ _ => 0) 0 = .ok (obs', dots'))
    (hmis : round (∑ i, ∑ j, expectedQ dots' qpadlen' spadlen' qbedlen' sbedlen' i j) ≠
      (dots' : ℤ)) :
    (∑ i, ∑ j, obs i j) = dots ∧
    (∑ i, ∑ j, expectedQ dots qpadlen spadlen qbedlen sbedlen i j) = (dots : ℚ) ∧
    clusterChecks qlook slook rows qpadlen spadlen qbedlen sbedlen =
      .ok (obs, dots, expectedQ dots qpadlen spadlen qbedlen sbedlen) ∧
    clusterChecks qlook slook rows' qpadlen' spadlen' qbedlen' sbedlen' =
      .error "AssertionError: expected" := by
  have hobs : (∑ i, ∑ j, obs i j) = dots := by
    have h := countObserved_ok_sum qlook slook rows (fun _ _ => 0) 0 obs dots hok
    simpa using h
  have hexp : (∑ i, ∑ j, expectedQ dots qpadlen spadlen qbedlen sbedlen i j) =
      (dots : ℚ) :=
    expectedQ_sum dots qpadlen spadlen qbedlen sbedlen hq hs hq0 hs0
  have hround : ∀ (o : Fin m → Fin n → ℕ) (dt : ℕ), (∑ i, ∑ j, o i j) = dt →
      round (∑ i, ∑ j, ((o i j : ℚ))) = (dt : ℤ) := by
    intro o dt hsum
    have hcast : (∑ i, ∑ j, ((o i j : ℚ))) = ((dt : ℕ) : ℚ) := by
      rw [← hsum]
      push_cast
      rfl
    rw [hcast, round_natCast]
  refine ⟨hobs, hexp, ?_, ?_⟩
  · unfold clusterChecks
    rw [hok]
    dsimp only
    rw [if_neg (by simp [hround obs dots hobs]),
      if_neg (by simp [hexp, round_natCast])]
  · have hobs' : (∑ i, ∑ j, obs' i j) = dots' := by
      have h := countObserved_ok_sum qlook slook rows' (fun _ _ => 0) 0 obs' dots' hok'
      simpa using h
    unfold clusterChecks
    rw [hok']
    dsimp only
    rw [if_neg (by simp [hround obs' dots' hobs']), if_pos hmis]

/-- A tiny PAD order lookup with the single accession `A` in one partition. -/
def okLook : String → Option (Fin 1) := fun s =>
  if s = "A" then some 0 else none

/-- Witness for C7: one hit `("A", "A")`, one 2-gene query partition of a
2-gene genome and one 3-gene subject partition of a 3-gene genome satisfy
both assertions; with the bed lengths misdeclared as `5 * 3` the expected
sum check fails and the run aborts. -/
theorem cluster_sum_invariants_witness :
    (∑ i, ∑ j, bump (fun _ _ : Fin 1 => 0) 0 0 i j) = 1 ∧
    (∑ i, ∑ j, expectedQ 1 (fun _ : Fin 1 => 2) (fun _ : Fin 1 => 3) 2 3 i j) = (1 : ℚ) ∧
    clusterChecks okLook okLook [("A", "A")] (fun _ => 2) (fun _ => 3) 2 3 =
      .ok (bump (fun _ _ => 0) 0 0, 1, expectedQ 1 (fun _ => 2) (fun _ => 3) 2 3) ∧
    clusterChecks okLook okLook [("A", "A")] (fun _ => 2) (fun _ => 3) 5 3 =
      .error "AssertionError: expected" :=
  cluster_sum_invariants okLook okLook [("A", "A")] (fun _ => 2) (fun _ => 3) 2 3
    (bump (fun _ _ => 0) 0 0) 1 rfl (by decide) (by decide) (by decide) (by decide)
    [("A", "A")] (fun _ => 2) (fun _ => 3) 5 3 (bump (fun _ _ => 0) 0 0) 1 rfl
    (by
      have h : (∑ i, ∑ j, expectedQ 1 (fun _ : Fin 1 => 2) (fun _ : Fin 1 => 3)
          5 3 i j) = 2 / 5 := by
        simp [expectedQ, Fin.sum_univ_one]
        norm_num
      rw [h]
      norm_num [round_eq])

/-- C3: each significance cell equals
`max(-ln(M * PoissonPMF(observed[i][j]; expected[i][j])), 0)` with
`M = m * n`, where the observed count is the number of hits resolving to
partition pair `(i, j)` and
`expected[i][j] = total_hits * len_i * len_j / (qGeneCount * sGeneCount)`;
negative values are clamped to zero by the outer `max`. -/
theorem cluster_significance_formula {m n : ℕ} (qlook : String → Option (Fin m))
    (slook : String → Option (Fin n)) (rows : List (String × String))
    (qpadlen : Fin m → ℕ) (spadlen : Fin n → ℕ) (qbedlen sbedlen : ℕ)
    (obs : Fin m → Fin n → ℕ) (dots : ℕ)
    (hok : countObserved qlook slook rows (fun _ _ => 0) 0 = .ok (obs, dots))
    (i : Fin m) (j : Fin n) :
    logmpMatrix obs (expectedQ dots qpadlen spadlen qbedlen sbedlen) i j =
      max (-(Real.log ((m * n : ℝ) *
        (Real.exp (-(((dots * qpadlen i * spadlen j : ℚ) / (qbedlen * sbedlen) : ℚ) : ℝ)) *
          ((((dots * qpadlen i * spadlen j : ℚ) / (qbedlen * sbedlen) : ℚ) : ℝ) ^
            (rows.countP (fun r => decide (qlook r.1 = some i) &&
              decide (slook r.2 = some j)))) /
          Nat.factorial (rows.countP (fun r => decide (qlook r.1 = some i) &&
            decide (slook r.2 = some j))))))) 0 ∧
    expectedQ dots qpadlen spadlen qbedlen sbedlen i j =
      (dots * qpadlen i * spadlen j : ℚ) / (qbedlen * sbedlen) ∧
    obs i j = rows.countP (fun r => decide (qlook r.1 = some i) &&
      decide (slook r.2 = some j)) := by
  have hcell : obs i j = rows.countP (fun r => decide (qlook r.1 = some i) &&
      decide (slook r.2 = some j)) := by
    have h := countObserved_ok_cell qlook slook rows (fun _ _ => 0) 0 obs dots hok i j
    simpa using h
  refine ⟨?_, rfl, hcell⟩
  unfold logmpMatrix poissonPmf expectedQ
  rw [hcell]

/-- Witness for C3 at the one-hit, one-cell scorer input. -/
theorem cluster_significance_formula_witness :
    logmpMatrix (bump (fun _ _ : Fin 1 => (0:ℕ)) 0 0)
        (expectedQ 1 (fun _ : Fin 1 => 2) (fun _ : Fin 1 => 3) 2 3) 0 0 =
      max (-(Real.log ((((1:ℕ) : ℝ) * ((1:ℕ) : ℝ)) *
        (Real.exp (-(((((1:ℕ) : ℚ) * ((2:ℕ) : ℚ) * ((3:ℕ) : ℚ) /
            (((2:ℕ) : ℚ) * ((3:ℕ) : ℚ)) : ℚ) : ℝ))) *
          (((((1:ℕ) : ℚ) * ((2:ℕ) : ℚ) * ((3:ℕ) : ℚ) /
            (((2:ℕ) : ℚ) * ((3:ℕ) : ℚ)) : ℚ) : ℝ) ^
            ([("A", "A")].countP (fun r => decide (okLook r.1 = some 0) &&
              decide (okLook r.2 = some 0)))) /
          Nat.factorial ([("A", "A")].countP (fun r => decide (okLook r.1 = some 0) &&
            decide (okLook r.2 = some 0))))))) 0 ∧
    expectedQ 1 (fun _ : Fin 1 => 2) (fun _ : Fin 1 => 3) 2 3 0 0 =
      ((1:ℕ) : ℚ) * ((2:ℕ) : ℚ) * ((3:ℕ) : ℚ) / (((2:ℕ) : ℚ) * ((3:ℕ) : ℚ)) ∧
    bump (fun _ _ : Fin 1 => (0:ℕ)) 0 0 0 0 = [("A", "A")].countP
      (fun r => decide (okLook r.1 = some 0) && decide (okLook r.2 = some 0)) :=
  cluster_significance_formula okLook okLook [("A", "A")] (fun _ => 2) (fun _ => 3)
    2 3 (bump (fun _ _ => 0) 0 0) 1 rfl 0 0

theorem readBlastStep_skip (qorder sorder : String → Option (ℤ × String))
    (is_self : Bool) (acc : List Hit × List (String × String))
    (row : String × String)
    (h : ¬ (((qorder row.1).isSome && (sorder row.2).isSome) = true)) :
    readBlastStep qorder sorder is_self acc row = acc := by
  unfold readBlastStep
  rcases hq : qorder row.1 with _ | v
  · rfl
  · obtain ⟨qi, q⟩ := v
    rcases hs : sorder row.2 with _ | w
    · rfl
    · exact absurd (by simp [hq, hs]) h

theorem readAnchorsStep_skip (qorder sorder : String → Option (ℤ × String))
    (acc : List ((String × String) × (ℤ × ℤ))) (row : String × String)
    (h : ¬ (((qorder row.1).isSome && (sorder row.2).isSome) = true)) :
    readAnchorsStep qorder sorder acc row = acc := by
  unfold readAnchorsStep
  rcases hq : qorder row.1 with _ | v
  · rfl
  · obtain ⟨qi, q⟩ := v
    rcases hs : sorder row.2 with _ | w
    · rfl
    · exact absurd (by simp [hq, hs]) h

theorem readBlast_foldl_filter (qorder sorder : String → Option (ℤ × String))
    (is_self : Bool) (rows : List (String × String)) :
    ∀ acc : List Hit × List (String × String),
    rows.foldl (readBlastStep qorder sorder is_self) acc =
      (rows.filter (fun r => (qorder r.1).isSome && (sorder r.2).isSome)).foldl
        (readBlastStep qorder sorder is_self) acc := by
  induction rows with
  | nil => intro acc; rfl
  | cons r rs ih =>
    intro acc
    by_cases hk : ((qorder r.1).isSome && (sorder r.2).isSome) = true
    · simp only [List.filter_cons]
      rw [if_pos hk, List.foldl_cons, List.foldl_cons]
      exact ih _
    · simp only [List.filter_cons]
      rw [if_neg hk, List.foldl_cons,
        readBlastStep_skip qorder sorder is_self acc r hk]
      exact ih acc

theorem readAnchors_foldl_filter (qorder sorder : String → Option (ℤ × String))
    (rows : List (String × String)) :
    ∀ acc : List ((String × String) × (ℤ × ℤ)),
    rows.foldl (readAnchorsStep qorder sorder) acc =
      (rows.filter (fun r => (qorder r.1).isSome && (sorder r.2).isSome)).foldl
        (readAnchorsStep qorder sorder) acc := by
  induction rows with
  | nil => intro acc; rfl
  | cons r rs ih =>
    intro acc
    by_cases hk : ((qorder r.1).isSome && (sorder r.2).isSome) = true
    · simp only [List.filter_cons]
      rw [if_pos hk, List.foldl_cons, List.foldl_cons]
      exact ih _
    · simp only [List.filter_cons]
      rw [if_neg hk, List.foldl_cons,
        readAnchorsStep_skip qorder sorder acc r hk]
      exact ih acc

/-- A PAD order lookup with no known accessions. -/
def noLook : String → Option (Fin 1) := fun _ => none

/-- C8 counterexample: the `cluster` scorer's hit counting indexes the PAD
order lookups directly — a blast row whose accession is absent raises a
`KeyError` (modelled as `Except.error`) instead of being silently skipped:
the run that should have skipped the record (the filtered run, which
returns ok) and the actual run produce different, incompatible results. -/
theorem cluster_missing_accession_cex :
    countObserved noLook noLook [("A", "X")] (fun _ _ => 0) 0 = .error "KeyError" ∧
    countObserved noLook noLook ([("A", "X")].filter
      (fun r => (noLook r.1).isSome && (noLook r.2).isSome)) (fun _ _ => 0) 0 =
      .ok ((fun _ _ => 0), 0) ∧
    (Except.error "KeyError" ≠
      (Except.ok ((fun _ _ => 0), 0) : Except String ((Fin 1 → Fin 1 → ℕ) × ℕ))) :=
  ⟨rfl, rfl, by simp⟩

/-- C8 amended: `read_blast` and `read_anchors` silently skip records whose
accession is absent from the genome-order lookup (running them on the input
is the same as running them on the input restricted to resolvable records),
but the `cluster` scorer's hit counting does not: it only completes
successfully when every row resolves, and raises a `KeyError` otherwise, as
the counterexample shows. -/
theorem missing_accessions {m n : ℕ} (qorder sorder : String → Option (ℤ × String))
    (rows : List (String × String)) (is_self : Bool)
    (arows : List (String × String))
    (qlook : String → Option (Fin m)) (slook : String → Option (Fin n))
    (rows2 : List (String × String)) (obs0 : Fin m → Fin n → ℕ) (d0 : ℕ)
    (obs : Fin m → Fin n → ℕ) (dots : ℕ)
    (hok : countObserved qlook slook rows2 obs0 d0 = .ok (obs, dots)) :
    read_blast rows qorder sorder is_self =
      read_blast (rows.filter (fun r => (qorder r.1).isSome && (sorder r.2).isSome))
        qorder sorder is_self ∧
    read_anchors arows qorder sorder =
      read_anchors (arows.filter (fun r => (qorder r.1).isSome && (sorder r.2).isSome))
        qorder sorder ∧
    rows2.all (fun r => (qlook r.1).isSome && (slook r.2).isSome) = true := by
  refine ⟨?_, ?_, ?_⟩
  · unfold read_blast
    rw [readBlast_foldl_filter]
  · unfold read_anchors
    rw [readAnchors_foldl_filter]
  · induction rows2 generalizing obs0 d0 with
    | nil => rfl
    | cons r rs ih =>
      rw [countObserved_cons] at hok
      rcases hq : qlook r.1 with _ | i' <;> rw [hq] at hok
      · exact absurd hok (by simp)
      rcases hs : slook r.2 with _ | j' <;> rw [hs] at hok
      · exact absurd hok (by simp)
      rw [List.all_cons, ih (bump obs0 i' j') (d0 + 1) hok]
      simp [hq, hs]

/-- Witness for C8's amended claim: a blast/anchor list with the unknown
accession `Z` is processed as if filtered, and a fully resolvable scorer
input reports all rows resolvable. -/
theorem missing_accessions_witness :
    read_blast [("A", "B"), ("Z", "B")] selfOrderAB selfOrderAB false =
      read_blast ([("A", "B"), ("Z", "B")].filter
        (fun r => (selfOrderAB r.1).isSome && (selfOrderAB r.2).isSome))
        selfOrderAB selfOrderAB false ∧
    read_anchors [("A", "B"), ("Z", "B")] selfOrderAB selfOrderAB =
      read_anchors ([("A", "B"), ("Z", "B")].filter
        (fun r => (selfOrderAB r.1).isSome && (selfOrderAB r.2).isSome))
        selfOrderAB selfOrderAB ∧
    [("A", "A")].all (fun r => (okLook r.1).isSome && (okLook r.2).isSome) = true :=
  missing_accessions selfOrderAB selfOrderAB [("A", "B"), ("Z", "B")] false
    [("A", "B"), ("Z", "B")] okLook okLook [("A", "A")] (fun _ _ => 0) 0
    (bump (fun _ _ => 0) 0 0) 1 rfl

end Synteny
